import Mathlib

/-!
Shallow embedding of the file-upload server (the Express application in the
repository's single server source file): the JSON metadata store
(`loadMeta` / `saveMeta`), the multer disk-storage filename logic, and the
upload / list / download / delete request handlers, together with proofs of
the specification's claims about them.

Conventions of the embedding:
* the persisted metadata document is a `DocState`: `valid l` stands for a
  readable file whose text is the JSON serialization of the record list `l`
  (the only writers ever write such a text), `corrupt` for a file whose read
  or `JSON.parse` fails;
* the upload directory is a list of stored file names plus an oracle telling
  whether `fs.promises.unlink` succeeds on a given name (`false` models an
  I/O error thrown by `unlink`);
* `uploadedAt` is modelled as the time value (milliseconds since the epoch)
  denoted by the ISO-8601 string the code stores; `new Date(s)` is
  order-preserving on such strings, so sorting by the parsed dates is
  sorting by these numbers;
* `uuidv4()` values and the `mime-types` lookup table are passed in as
  parameters (a list of generated identifiers, one per part, and a function
  from names to optional types).
-/

namespace FileUpload

/-- One metadata record per uploaded file, with the exact fields built in the
`POST /api/upload` handler. -/
structure FileRecord where
  id : String
  originalName : String
  storedName : String
  extension : String
  size : Nat
  mime : String
  uploadedAt : Nat
deriving DecidableEq, Repr

/-- JSON values as produced by `JSON.stringify` / `JSON.parse`; numbers are
restricted to the naturals actually occurring in this program. -/
inductive Json where
  | null : Json
  | bool (b : Bool) : Json
  | num (n : Nat) : Json
  | str (s : String) : Json
  | arr (elems : List Json) : Json
  | obj (fields : List (String × Json)) : Json

/-- Serialization of one record: the object literal pushed by the upload
handler, field for field. -/
def encodeRecord (r : FileRecord) : Json :=
  .obj [("id", .str r.id), ("originalName", .str r.originalName),
        ("storedName", .str r.storedName), ("extension", .str r.extension),
        ("size", .num r.size), ("mime", .str r.mime),
        ("uploadedAt", .num r.uploadedAt)]

/-- Read a string-valued field out of a JSON object's field list. -/
def getStr (k : String) (fields : List (String × Json)) : Option String :=
  match fields.lookup k with
  | some (.str s) => some s
  | _ => none

/-- Read a number-valued field out of a JSON object's field list. -/
def getNum (k : String) (fields : List (String × Json)) : Option Nat :=
  match fields.lookup k with
  | some (.num n) => some n
  | _ => none

/-- Deserialization of one record from a JSON value. -/
def decodeRecord (j : Json) : Option FileRecord :=
  match j with
  | .obj fields =>
    match getStr "id" fields, getStr "originalName" fields,
          getStr "storedName" fields, getStr "extension" fields,
          getNum "size" fields, getStr "mime" fields,
          getNum "uploadedAt" fields with
    | some i, some o, some sn, some e, some sz, some m, some u =>
        some ⟨i, o, sn, e, sz, m, u⟩
    | _, _, _, _, _, _, _ => none
  | _ => none

/-- Serialization of the whole metadata document (a JSON array). -/
def encodeMeta (l : List FileRecord) : Json :=
  .arr (l.map encodeRecord)

/-- Deserialization of the whole metadata document. -/
def decodeMeta (j : Json) : Option (List FileRecord) :=
  match j with
  | .arr elems => elems.mapM decodeRecord
  | _ => none

/-- State of the persisted metadata document (`metadata.json`). -/
inductive DocState where
  | valid (records : List FileRecord) : DocState
  | corrupt : DocState

/-- The upload directory: the stored names present on disk, plus an oracle
saying whether `fs.promises.unlink` succeeds on a name. -/
structure FS where
  files : List String
  unlinkOk : String → Bool

/-- Server-visible state: the metadata document plus the upload directory. -/
structure SrvState where
  doc : DocState
  fs : FS

/-- The `loadMeta` function: read and `JSON.parse` the metadata document; on
any failure, log, rewrite the document as the empty array and return `[]`. -/
def loadMeta (s : SrvState) : List FileRecord × SrvState :=
  match s.doc with
  | .valid l => (l, s)
  | .corrupt => ([], { s with doc := .valid [] })

/-- The `saveMeta` function: overwrite the metadata document with the given
full list. -/
def saveMeta (l : List FileRecord) (s : SrvState) : SrvState :=
  { s with doc := .valid l }

/-- The `getFileInfoById` function: `list.find((f) => f.id === id) || null`. -/
def getFileInfoById (id : String) (l : List FileRecord) : Option FileRecord :=
  l.find? (fun f => f.id == id)

/-- Characters from the last dot of the list onwards, if any dot occurs. -/
def extTail : List Char → Option (List Char)
  | [] => none
  | c :: cs =>
    match extTail cs with
    | some e => some e
    | none => if c = '.' then some (c :: cs) else none

/-- Character-level body of `path.extname`: the suffix starting at the last
dot, or `[]` when there is no dot or the only dot is the leading character
(a leading dot, as in a hidden file, does not start an extension). -/
def extnameAux : List Char → List Char
  | [] => []
  | c :: cs =>
    if c = '.' then
      match extTail cs with
      | some e => e
      | none => []
    else
      match extTail (c :: cs) with
      | some e => e
      | none => []

/-- The `path.extname` function, restricted to plain file names (no
directory separators). -/
def extname (name : String) : String :=
  (extnameAux name.data).asString

/-- The allowlist of the sanitization regex: the character class
`[.a-zA-Z0-9]` (dot, ASCII letters, ASCII digits). -/
def allowedExtChar (c : Char) : Bool :=
  c == '.' || c.isAlpha || c.isDigit

/-- The sanitization `ext.replace(/[^.a-zA-Z0-9]/g, '')` performed in
`storage.filename`: drop every character outside the allowlist. -/
def sanitizeExt (e : String) : String :=
  (e.data.filter allowedExtChar).asString

/-- The `storage.filename` callback: name the file on disk `id + safeExt`
where `id` is the freshly generated `uuidv4()` value (passed in here) and
`safeExt` is the sanitized extension of the client-supplied name. -/
def storageFilename (id : String) (originalname : String) : String :=
  id ++ sanitizeExt (extname originalname)

/-- The `path.parse(name).name` operation for a plain file name: the name
with its `extname` suffix removed. -/
def parseName (name : String) : String :=
  (name.data.take (name.data.length - (extname name).data.length)).asString

/-- The fallback chain `f.mimetype || mime.lookup(f.originalname) ||
'application/octet-stream'`; `none` models a falsy value at each stage. -/
def resolveMime (declared : Option String) (lookedUp : Option String) : String :=
  match declared with
  | some m => m
  | none =>
    match lookedUp with
    | some m => m
    | none => "application/octet-stream"

/-- One part of the multipart body as the client sends it: declared file
name, declared content type and size in bytes. -/
structure PartInput where
  originalname : String
  mimetype : Option String
  size : Nat

/-- One file as multer's disk storage hands it to the handler. -/
structure StoredPart where
  originalname : String
  filename : String
  mimetype : Option String
  size : Nat

/-- The multer errors this application can hit: a part over
`limits.fileSize`, or more parts in the `files` field than `upload.array`'s
`maxCount` of 10. -/
inductive MulterError where
  | limitFileSize : MulterError
  | limitUnexpectedFile : MulterError
deriving DecidableEq

/-- Disk-storage processing of one accepted part. -/
def mkStoredPart (id : String) (p : PartInput) : StoredPart :=
  { originalname := p.originalname
    filename := storageFilename id p.originalname
    mimetype := p.mimetype
    size := p.size }

/-- Multer's scan of the parts in arrival order, with `seen` parts already
accepted: an arriving part is first counted against `maxCount = 10` and then
streamed against `limits.fileSize`; the first violation aborts the request
(multer unlinks any files already written, so an aborted request leaves the
disk as it was). On success every part is stored under its generated name. -/
def multerScan (maxSize : Nat) (seen : Nat) :
    List (PartInput × String) → Except MulterError (List StoredPart)
  | [] => .ok []
  | (p, id) :: rest =>
    if 10 ≤ seen then .error .limitUnexpectedFile
    else if maxSize < p.size then .error .limitFileSize
    else
      match multerScan maxSize (seen + 1) rest with
      | .ok parts => .ok (mkStoredPart id p :: parts)
      | .error e => .error e

/-- Responses of `POST /api/upload`. `fileTooLarge` and `uploadFailed` are
the two branches of the handler's catch block; since the handler body itself
cannot raise a `LIMIT_FILE_SIZE` error (only the multer middleware can, and
a middleware error never reaches the handler), the `fileTooLarge` branch is
dead code in the program. `expressDefaultError` is the answer of Express's
default error handler, which receives the `next(err)` of a failing
middleware; a `MulterError` carries no `status`, so that answer is 500. -/
inductive UploadResult where
  | created (files : List FileRecord) : UploadResult
  | fileTooLarge : UploadResult
  | uploadFailed : UploadResult
  | expressDefaultError : UploadResult
deriving DecidableEq

/-- HTTP status of an upload response: 201 on success, 400 for the (dead)
`LIMIT_FILE_SIZE` branch of the catch block, 500 for the catch's generic
branch and for Express's default error handler. -/
def UploadResult.status : UploadResult → Nat
  | .created _ => 201
  | .fileTooLarge => 400
  | .uploadFailed => 500
  | .expressDefaultError => 500

/-- The record built for one stored part in the upload loop (`now` is the
single `new Date().toISOString()` taken before the loop). -/
def mkUploadRecord (mimeLookup : String → Option String) (now : Nat)
    (f : StoredPart) : FileRecord :=
  { id := parseName f.filename
    originalName := f.originalname
    storedName := f.filename
    extension := extname f.filename
    size := f.size
    mime := resolveMime f.mimetype (mimeLookup f.originalname)
    uploadedAt := now }

/-- The `POST /api/upload` route: the multer middleware followed by the
handler body. A failing multer middleware calls `next(err)`, which makes
Express skip the route handler entirely (the handler's try/catch — with its
`err.code === 'LIMIT_FILE_SIZE'` → 400 branch — never runs) and fall
through to Express's default error handler, which answers 500 and commits
nothing; multer has already removed any partially written files. On success
the written files appear on disk, the handler loads the store, appends one
record per part, saves, and answers 201 with the new records. `ids` supplies
the `uuidv4()` value used for each part in order. -/
def uploadRoute (maxSize : Nat) (mimeLookup : String → Option String)
    (inputs : List PartInput) (ids : List String) (now : Nat) (s : SrvState) :
    UploadResult × SrvState :=
  match multerScan maxSize 0 (inputs.zip ids) with
  | .error _ => (.expressDefaultError, s)
  | .ok parts =>
    let s0 : SrvState :=
      { s with fs := { s.fs with files := s.fs.files ++ parts.map (·.filename) } }
    let (meta, s1) := loadMeta s0
    let saved := parts.map (mkUploadRecord mimeLookup now)
    (.created saved, saveMeta (meta ++ saved) s1)

/-- The comparator of `GET /api/files`:
`(a, b) => new Date(b.uploadedAt) - new Date(a.uploadedAt)`, i.e. a stable
sort placing `a` before `b` exactly when `b.uploadedAt ≤ a.uploadedAt`. -/
def sortNewestFirst (l : List FileRecord) : List FileRecord :=
  l.mergeSort (fun a b => decide (b.uploadedAt ≤ a.uploadedAt))

/-- The `GET /api/files` route: load the store, sort newest first, return. -/
def listRoute (s : SrvState) : List FileRecord × SrvState :=
  let (meta, s1) := loadMeta s
  (sortNewestFirst meta, s1)

/-- Membership of a character in the set JavaScript's `encodeURIComponent`
leaves unescaped: ASCII alphanumerics and `- _ . ! ~ * ' ( )` (listed here
by character code). -/
def isURIUnescaped (c : Char) : Bool :=
  c.isAlpha || c.isDigit || [45, 95, 46, 33, 126, 42, 39, 40, 41].contains c.toNat

/-- Uppercase hexadecimal digit for a value below 16. -/
def hexDigit (n : Nat) : Char :=
  if n < 10 then Char.ofNat (48 + n) else Char.ofNat (55 + n)

/-- UTF-8 encoding of one character, as a list of byte values. -/
def utf8Bytes (c : Char) : List Nat :=
  let n := c.toNat
  if n < 128 then [n]
  else if n < 2048 then [192 + n / 64, 128 + n % 64]
  else if n < 65536 then [224 + n / 4096, 128 + n / 64 % 64, 128 + n % 64]
  else [240 + n / 262144, 128 + n / 4096 % 64, 128 + n / 64 % 64, 128 + n % 64]

/-- Percent-escape of one byte. -/
def percentByte (b : Nat) : List Char :=
  ['%', hexDigit (b / 16), hexDigit (b % 16)]

/-- JavaScript's `encodeURIComponent`: keep unescaped characters, escape
every other character as the percent-encoding of its UTF-8 bytes. -/
def encodeURIComponent (s : String) : String :=
  (s.data.flatMap fun c =>
    if isURIUnescaped c then [c] else (utf8Bytes c).flatMap percentByte).asString

/-- The `Content-Disposition` header value sent by the download handler. -/
def contentDisposition (originalName : String) : String :=
  "attachment; filename=\"" ++ encodeURIComponent originalName ++ "\""

/-- Responses of `GET /api/files/:id/download`. A `stream` response carries
the `Content-Type` header, the `Content-Disposition` header and the stored
name of the file whose bytes are piped to the client. -/
inductive DownloadResult where
  | notFound : DownloadResult
  | missingOnDisk : DownloadResult
  | stream (contentType dispositionHeader streamedFile : String) : DownloadResult
deriving DecidableEq

/-- HTTP status of a download response. -/
def DownloadResult.status : DownloadResult → Nat
  | .stream _ _ _ => 200
  | .notFound => 404
  | .missingOnDisk => 404

/-- The `GET /api/files/:id/download` route: resolve the record (404 when
absent), check the backing file exists on disk (404 when missing), else set
the two headers and pipe the file. -/
def downloadRoute (id : String) (s : SrvState) : DownloadResult × SrvState :=
  let (meta, s1) := loadMeta s
  match getFileInfoById id meta with
  | none => (.notFound, s1)
  | some file =>
    if file.storedName ∈ s1.fs.files then
      (.stream file.mime (contentDisposition file.originalName) file.storedName, s1)
    else (.missingOnDisk, s1)

/-- The combination `findIndex` / `meta[idx]` / `splice(idx, 1)` used by the
delete handler: the first element satisfying the predicate together with the
list with that element removed. -/
def findRemove (p : α → Bool) : List α → Option (α × List α)
  | [] => none
  | x :: xs =>
    if p x then some (x, xs)
    else
      match findRemove p xs with
      | some (y, ys) => some (y, x :: ys)
      | none => none

/-- Responses of `DELETE /api/files/:id`. -/
inductive DeleteResult where
  | ok : DeleteResult
  | notFound : DeleteResult
  | failed : DeleteResult
deriving DecidableEq

/-- HTTP status of a delete response: 200 `{ok:true}`, 404 `Not found`, or
500 `Failed to delete`. -/
def DeleteResult.status : DeleteResult → Nat
  | .ok => 200
  | .notFound => 404
  | .failed => 500

/-- The `DELETE /api/files/:id` route: load the store and locate the record
(404 when absent); inside the try block, unlink the backing file only if it
exists (`existsSync`), then splice the record out and save; a throwing
unlink reaches the catch block, which answers 500 with the store and disk
untouched. -/
def deleteRoute (id : String) (s : SrvState) : DeleteResult × SrvState :=
  let (meta, s1) := loadMeta s
  match findRemove (fun f => f.id == id) meta with
  | none => (.notFound, s1)
  | some (file, rest) =>
    if file.storedName ∈ s1.fs.files then
      if s1.fs.unlinkOk file.storedName then
        (.ok, saveMeta rest
          { s1 with fs := { s1.fs with files := s1.fs.files.erase file.storedName } })
      else (.failed, s1)
    else (.ok, saveMeta rest s1)

/-! ### Small concrete states used to exercise the theorems -/

/-- A record as the upload handler would create it. -/
def demoRec : FileRecord :=
  ⟨"a", "orig.txt", "a.txt", ".txt", 3, "text/plain", 5⟩

/-- A state holding one record whose backing file is on disk. -/
def demoState : SrvState :=
  ⟨.valid [demoRec], ⟨["a.txt"], fun _ => true⟩⟩

/-- The same state with a filesystem whose `unlink` always throws. -/
def demoStateFail : SrvState :=
  ⟨.valid [demoRec], ⟨["a.txt"], fun _ => false⟩⟩

/-- An empty store over an empty upload directory. -/
def demoEmpty : SrvState :=
  ⟨.valid [], ⟨[], fun _ => true⟩⟩

/-! ### Basic lemmas about the metadata store -/

theorem decodeRecord_encodeRecord (r : FileRecord) :
    decodeRecord (encodeRecord r) = some r := rfl

theorem decodeMeta_encodeMeta (l : List FileRecord) :
    decodeMeta (encodeMeta l) = some l := by
  have : ∀ t : List FileRecord, (t.map encodeRecord).mapM decodeRecord = some t := by
    intro t
    induction t with
    | nil => rfl
    | cons r u ih =>
      simp only [List.map_cons, List.mapM_cons, decodeRecord_encodeRecord, ih,
        Option.pure_def, Option.bind_eq_bind, Option.some_bind]
  simpa [decodeMeta, encodeMeta] using this l

theorem loadMeta_valid {s : SrvState} {l : List FileRecord} (h : s.doc = .valid l) :
    loadMeta s = (l, s) := by
  obtain ⟨d, f⟩ := s
  cases d with
  | valid m => cases h; rfl
  | corrupt => cases h

/-! ### Lemmas about `findRemove` -/

theorem findRemove_eq_none {α : Type} {p : α → Bool} :
    ∀ l : List α, findRemove p l = none ↔ l.find? p = none := by
  intro l
  induction l with
  | nil => simp [findRemove]
  | cons x xs ih =>
    by_cases h : p x
    · simp [findRemove, h, List.find?_cons_of_pos _ h]
    · rw [List.find?_cons_of_neg _ h]
      cases hfr : findRemove p xs with
      | none => simp [findRemove, h, hfr, ← ih, hfr]
      | some yz =>
        obtain ⟨y, ys⟩ := yz
        simp only [findRemove, if_neg h, hfr]
        constructor
        · intro hc; cases hc
        · intro hn
          have := ih.mpr hn
          rw [hfr] at this
          cases this

theorem findRemove_find? {α : Type} {p : α → Bool} :
    ∀ {l : List α} {x : α} {xs : List α},
      findRemove p l = some (x, xs) → l.find? p = some x := by
  intro l
  induction l with
  | nil => intro x xs h; cases h
  | cons a t ih =>
    intro x xs h
    by_cases ha : p a
    · simp only [findRemove, if_pos ha] at h
      cases h
      exact List.find?_cons_of_pos _ ha
    · rw [List.find?_cons_of_neg _ ha]
      simp only [findRemove, if_neg ha] at h
      cases hfr : findRemove p t with
      | none => rw [hfr] at h; cases h
      | some yz =>
        obtain ⟨y, ys⟩ := yz
        rw [hfr] at h
        cases h
        exact ih hfr

theorem find?_findRemove {α : Type} {p : α → Bool} :
    ∀ {l : List α} {x : α},
      l.find? p = some x → ∃ xs, findRemove p l = some (x, xs) := by
  intro l
  induction l with
  | nil => intro x h; cases h
  | cons a t ih =>
    intro x h
    by_cases ha : p a
    · rw [List.find?_cons_of_pos _ ha] at h
      cases h
      exact ⟨t, by simp [findRemove, ha]⟩
    · rw [List.find?_cons_of_neg _ ha] at h
      obtain ⟨xs, hxs⟩ := ih h
      exact ⟨a :: xs, by simp [findRemove, ha, hxs]⟩

theorem findRemove_rest {α : Type} {p : α → Bool} :
    ∀ {l : List α} {x : α} {xs : List α},
      l.countP p ≤ 1 → findRemove p l = some (x, xs) →
      xs = l.filter (fun a => !(p a)) := by
  intro l
  induction l with
  | nil => intro x xs _ h; cases h
  | cons a t ih =>
    intro x xs hcount h
    by_cases ha : p a
    · simp only [findRemove, if_pos ha] at h
      cases h
      rw [List.countP_cons_of_pos _ _ ha] at hcount
      have hzero : t.countP p = 0 := by omega
      have hall : ∀ b ∈ t, ¬ p b := List.countP_eq_zero.mp hzero
      rw [List.filter_cons_of_neg (by simp [ha])]
      exact (List.filter_eq_self.mpr (fun b hb => by simp [hall b hb])).symm
    · simp only [findRemove, if_neg ha] at h
      cases hfr : findRemove p t with
      | none => rw [hfr] at h; cases h
      | some yz =>
        obtain ⟨y, ys⟩ := yz
        rw [hfr] at h
        cases h
        rw [List.countP_cons_of_neg _ _ ha] at hcount
        rw [List.filter_cons_of_pos (by simp [ha])]
        rw [ih hcount hfr]

/-! ### Lemmas about extensions and stored names -/

theorem extTail_eq_none {cs : List Char} : extTail cs = none ↔ '.' ∉ cs := by
  induction cs with
  | nil => simp [extTail]
  | cons c cs ih =>
    simp only [extTail]
    cases h : extTail cs with
    | some e =>
      constructor
      · intro hc; cases hc
      · intro hn
        have hnone : extTail cs = none :=
          ih.mpr (fun hm => hn (List.mem_cons_of_mem _ hm))
        rw [h] at hnone
        cases hnone
    | none =>
      by_cases hc : c = '.'
      · subst hc
        simp
      · have hcs : '.' ∉ cs := ih.mp h
        simp [hc, List.mem_cons, hcs]
        intro he
        exact hc he.symm

theorem extTail_shape {cs e : List Char} (h : extTail cs = some e) :
    ∃ t, e = '.' :: t ∧ '.' ∉ t := by
  induction cs generalizing e with
  | nil => cases h
  | cons c cs ih =>
    simp only [extTail] at h
    cases hs : extTail cs with
    | some e2 =>
      rw [hs] at h
      cases h
      exact ih hs
    | none =>
      rw [hs] at h
      by_cases hc : c = '.'
      · rw [if_pos hc] at h
        cases h
        exact ⟨cs, by rw [hc], extTail_eq_none.mp hs⟩
      · rw [if_neg hc] at h
        cases h

theorem extTail_append {t : List Char} (h : '.' ∉ t) :
    ∀ pre : List Char, extTail (pre ++ '.' :: t) = some ('.' :: t) := by
  intro pre
  induction pre with
  | nil =>
    rw [List.nil_append]
    simp [extTail, extTail_eq_none.mpr h]
  | cons c pre ih =>
    rw [List.cons_append]
    simp only [extTail, ih]

theorem extnameAux_no_dot {cs : List Char} (h : '.' ∉ cs) : extnameAux cs = [] := by
  cases cs with
  | nil => rfl
  | cons c cs =>
    have hc : ¬ c = '.' := fun hce => h (by rw [hce]; exact List.mem_cons_self _ _)
    simp only [extnameAux, if_neg hc]
    rw [extTail_eq_none.mpr h]

theorem extnameAux_append {id : List Char} (t : List Char)
    (h1 : id ≠ []) (h2 : '.' ∉ id) (h3 : '.' ∉ t) :
    extnameAux (id ++ '.' :: t) = '.' :: t := by
  cases id with
  | nil => exact absurd rfl h1
  | cons c cs =>
    have hc : ¬ c = '.' := fun hce => h2 (by rw [hce]; exact List.mem_cons_self _ _)
    rw [List.cons_append]
    simp only [extnameAux, if_neg hc]
    have he : extTail (c :: (cs ++ '.' :: t)) = some ('.' :: t) := by
      have h4 := extTail_append h3 (c :: cs)
      rwa [List.cons_append] at h4
    rw [he]

theorem extnameAux_shape (cs : List Char) :
    extnameAux cs = [] ∨ ∃ u, extnameAux cs = '.' :: u ∧ '.' ∉ u := by
  cases cs with
  | nil => left; rfl
  | cons c cs =>
    by_cases hc : c = '.'
    · simp only [extnameAux, if_pos hc]
      cases hs : extTail cs with
      | none => left; rfl
      | some e =>
        right
        obtain ⟨u, he, hu⟩ := extTail_shape hs
        exact ⟨u, by rw [he], hu⟩
    · simp only [extnameAux, if_neg hc]
      cases hs : extTail (c :: cs) with
      | none => left; rfl
      | some e =>
        right
        obtain ⟨u, he, hu⟩ := extTail_shape hs
        exact ⟨u, by rw [he], hu⟩

theorem extname_no_dot {s : String} (h : '.' ∉ s.data) : extname s = "" := by
  unfold extname
  rw [extnameAux_no_dot h]
  rfl

theorem sanitizeExt_ext_shape (o : String) :
    (sanitizeExt (extname o)).data = [] ∨
    ∃ t, (sanitizeExt (extname o)).data = '.' :: t ∧ '.' ∉ t := by
  have hdata : (extname o).data = extnameAux o.data := rfl
  rcases extnameAux_shape o.data with h | ⟨u, hu, hnu⟩
  · left
    show ((extname o).data.filter allowedExtChar) = []
    rw [hdata, h]
    rfl
  · right
    refine ⟨u.filter allowedExtChar, ?_, fun hm => hnu (List.mem_of_mem_filter hm)⟩
    show ((extname o).data.filter allowedExtChar) = _
    rw [hdata, hu]
    rw [List.filter_cons_of_pos]
    decide

theorem parse_storageFilename (id o : String) (h1 : id ≠ "") (h2 : '.' ∉ id.data) :
    extname (storageFilename id o) = sanitizeExt (extname o) ∧
    parseName (storageFilename id o) = id := by
  have hid : id.data ≠ [] := fun hd => h1 (String.ext (by simp [hd]))
  rcases sanitizeExt_ext_shape o with hse | ⟨t, hse, hnt⟩
  · have hS : sanitizeExt (extname o) = "" := String.ext (by simpa using hse)
    have hfile : storageFilename id o = id := by
      apply String.ext
      rw [storageFilename, String.data_append, hS]
      show id.data ++ [] = id.data
      simp
    constructor
    · rw [hfile, hS]
      exact extname_no_dot h2
    · rw [hfile]
      unfold parseName
      rw [extname_no_dot h2]
      show (id.data.take (id.data.length - 0)).asString = id
      rw [Nat.sub_zero, List.take_length]
      exact String.ext rfl
  · have hS : sanitizeExt (extname o) = ('.' :: t).asString := String.ext (by simpa using hse)
    have hdata : (storageFilename id o).data = id.data ++ '.' :: t := by
      rw [storageFilename, hS, String.data_append]
      rfl
    have hext : extname (storageFilename id o) = ('.' :: t).asString := by
      show (extnameAux (storageFilename id o).data).asString = _
      rw [hdata, extnameAux_append t hid h2 hnt]
    constructor
    · rw [hext, hS]
    · unfold parseName
      rw [hext, hdata]
      show (List.take ((id.data ++ '.' :: t).length - ('.' :: t).length)
              (id.data ++ '.' :: t)).asString = id
      have harith : (id.data ++ '.' :: t).length - ('.' :: t).length =
          id.data.length := by
        simp
      rw [harith, List.take_left]
      exact String.ext rfl

/-- C8: for every uploaded part, the stored on-disk name is the generated
identifier followed by the sanitized extension, where sanitizing keeps
exactly the characters in the set of letters, digits and dot, in order. -/
theorem storage_filename_sanitizes (id originalname : String) :
    storageFilename id originalname = id ++ sanitizeExt (extname originalname) ∧
    (sanitizeExt (extname originalname)).data =
      (extname originalname).data.filter
        (fun c => decide (c = '.' ∨ c.isAlpha = true ∨ c.isDigit = true)) := by
  refine ⟨rfl, List.filter_congr ?_⟩
  intro c _
  by_cases h1 : c = '.'
  · simp [allowedExtChar, h1]
  · by_cases h2 : c.isAlpha <;> by_cases h3 : c.isDigit <;>
      simp [allowedExtChar, h1, h2, h3]

/-! ### Lemmas about the multer scan -/

theorem multerScan_ok (maxSize : Nat) :
    ∀ (qs : List (PartInput × String)) (seen : Nat),
      seen + qs.length ≤ 10 → (∀ q ∈ qs, q.1.size ≤ maxSize) →
      multerScan maxSize seen qs = .ok (qs.map fun q => mkStoredPart q.2 q.1) := by
  intro qs
  induction qs with
  | nil => intro seen _ _; rfl
  | cons q rest ih =>
    intro seen hc hs
    obtain ⟨p, id⟩ := q
    simp only [List.length_cons] at hc
    have h10 : ¬ 10 ≤ seen := by omega
    have hsz : ¬ maxSize < p.size := by
      have hple : p.size ≤ maxSize := hs (p, id) (List.mem_cons_self _ _)
      omega
    have hrest := ih (seen + 1) (by omega)
      (fun q hq => hs q (List.mem_cons_of_mem _ hq))
    simp only [multerScan, if_neg h10, if_neg hsz, hrest, List.map_cons]

theorem multerScan_oversize (maxSize : Nat) :
    ∀ (qs : List (PartInput × String)) (seen : Nat),
      seen + qs.length ≤ 10 → (∃ q ∈ qs, maxSize < q.1.size) →
      multerScan maxSize seen qs = .error .limitFileSize := by
  intro qs
  induction qs with
  | nil =>
    intro seen _ h
    obtain ⟨q, hq, _⟩ := h
    cases hq
  | cons q rest ih =>
    intro seen hc hbig
    obtain ⟨p, id⟩ := q
    simp only [List.length_cons] at hc
    have h10 : ¬ 10 ≤ seen := by omega
    by_cases hp : maxSize < p.size
    · simp only [multerScan, if_neg h10, if_pos hp]
    · obtain ⟨q, hq, hqs⟩ := hbig
      rcases List.mem_cons.mp hq with rfl | hmem
      · exact absurd hqs hp
      · have hrest := ih (seen + 1) (by omega) ⟨q, hmem, hqs⟩
        simp only [multerScan, if_neg h10, if_neg hp, hrest]

theorem uploadRoute_ok_eval (maxSize : Nat) (mimeLookup : String → Option String)
    (inputs : List PartInput) (ids : List String) (now : Nat) (s : SrvState)
    (l : List FileRecord) (parts : List StoredPart)
    (hdoc : s.doc = .valid l)
    (hscan : multerScan maxSize 0 (inputs.zip ids) = .ok parts) :
    uploadRoute maxSize mimeLookup inputs ids now s =
      (.created (parts.map (mkUploadRecord mimeLookup now)),
       saveMeta (l ++ parts.map (mkUploadRecord mimeLookup now))
         { s with fs := { s.fs with files := s.fs.files ++ parts.map (·.filename) } }) := by
  have hs0 : (({ s with
      fs := { s.fs with files := s.fs.files ++ parts.map (·.filename) } } : SrvState)).doc =
      .valid l := hdoc
  simp only [uploadRoute, hscan, loadMeta_valid hs0]

/-- C1, as the program actually behaves at the claim's failing input: an
upload request (within the at most 10 parts the endpoint accepts)
containing a part whose size exceeds the configured maximum is aborted by
the multer middleware; `next(err)` bypasses the route handler — whose
`LIMIT_FILE_SIZE` → 400 catch branch is dead code — and Express's default
error handler answers 500, not the 400 size-limit error the claim and spec
promise. The state is returned unchanged, so the claim's second half (no
new metadata record committed) does hold. -/
theorem upload_oversized_part_500 (maxSize : Nat)
    (mimeLookup : String → Option String) (inputs : List PartInput)
    (ids : List String) (now : Nat) (s : SrvState)
    (hlen : ids.length = inputs.length) (hcount : inputs.length ≤ 10)
    (hbig : ∃ p ∈ inputs, maxSize < p.size) :
    uploadRoute maxSize mimeLookup inputs ids now s = (.expressDefaultError, s) ∧
    UploadResult.expressDefaultError.status = 500 ∧
    UploadResult.fileTooLarge.status = 400 := by
  refine ⟨?_, rfl, rfl⟩
  have hzlen : (inputs.zip ids).length = inputs.length := by
    rw [List.length_zip, hlen, Nat.min_self]
  have hbig' : ∃ q ∈ inputs.zip ids, maxSize < q.1.size := by
    obtain ⟨p, hp, hps⟩ := hbig
    have hm : p ∈ (inputs.zip ids).map Prod.fst := by
      rw [List.map_fst_zip _ _ (le_of_eq hlen.symm)]
      exact hp
    obtain ⟨q, hq, hqe⟩ := List.mem_map.mp hm
    exact ⟨q, hq, by rw [hqe]; exact hps⟩
  have hscan := multerScan_oversize maxSize (inputs.zip ids) 0 (by omega) hbig'
  simp only [uploadRoute, hscan]

theorem upload_oversized_part_500_witness :
    uploadRoute 5 (fun _ => none) [⟨"a.txt", none, 6⟩] ["u1"] 0 demoEmpty =
      (.expressDefaultError, demoEmpty) ∧
    UploadResult.expressDefaultError.status = 500 ∧
    UploadResult.fileTooLarge.status = 400 :=
  upload_oversized_part_500 5 (fun _ => none) [⟨"a.txt", none, 6⟩] ["u1"]
    0 demoEmpty rfl (by decide)
    ⟨⟨"a.txt", none, 6⟩, List.mem_singleton.mpr rfl, by decide⟩

/-- C6: an upload request of accepted parts (sizes within the limit, at
most 10 parts, the generated identifiers fresh and pairwise distinct)
appends exactly one record per part to the store, the new records carry
exactly the generated identifiers (so every identifier in the store stays
unique and the new ones were not previously present), and the response is
201 with precisely the new records. -/
theorem upload_appends_fresh_records (maxSize : Nat)
    (mimeLookup : String → Option String) (inputs : List PartInput)
    (ids : List String) (now : Nat) (s : SrvState) (l : List FileRecord)
    (hdoc : s.doc = .valid l)
    (hlen : ids.length = inputs.length)
    (hcount : inputs.length ≤ 10)
    (hsize : ∀ p ∈ inputs, p.size ≤ maxSize)
    (hid : ∀ id ∈ ids, id ≠ "" ∧ '.' ∉ id.data)
    (hnodup : ids.Nodup)
    (hfresh : ∀ id ∈ ids, id ∉ l.map FileRecord.id)
    (hlids : (l.map FileRecord.id).Nodup) :
    ∃ saved : List FileRecord,
      (uploadRoute maxSize mimeLookup inputs ids now s).1 = .created saved ∧
      (UploadResult.created saved).status = 201 ∧
      saved.length = inputs.length ∧
      saved.map FileRecord.id = ids ∧
      (uploadRoute maxSize mimeLookup inputs ids now s).2.doc = .valid (l ++ saved) ∧
      ((l ++ saved).map FileRecord.id).Nodup := by
  have hzlen : (inputs.zip ids).length = inputs.length := by
    rw [List.length_zip, hlen, Nat.min_self]
  have hscan := multerScan_ok maxSize (inputs.zip ids) 0 (by omega)
    (fun q hq => hsize q.1 (List.of_mem_zip hq).1)
  have heval := uploadRoute_ok_eval maxSize mimeLookup inputs ids now s l _ hdoc hscan
  set saved :=
    ((inputs.zip ids).map fun q => mkStoredPart q.2 q.1).map
      (mkUploadRecord mimeLookup now) with hsaved
  have hmapid : saved.map FileRecord.id = ids := by
    rw [hsaved, List.map_map, List.map_map]
    have hpt : ∀ q ∈ inputs.zip ids,
        ((FileRecord.id ∘ mkUploadRecord mimeLookup now) ∘ fun q => mkStoredPart q.2 q.1) q =
          Prod.snd q := by
      intro q hq
      have hqid := hid q.2 (List.of_mem_zip hq).2
      exact (parse_storageFilename q.2 q.1.originalname hqid.1 hqid.2).2
    rw [List.map_congr_left hpt]
    exact List.map_snd_zip _ _ (le_of_eq hlen)
  refine ⟨saved, ?_, rfl, ?_, hmapid, ?_, ?_⟩
  · rw [heval]
  · rw [hsaved]
    simp [hzlen]
  · rw [heval]
    rfl
  · rw [List.map_append, hmapid]
    exact List.Nodup.append hlids hnodup
      (fun a ha hb => hfresh a hb ha)

theorem upload_appends_fresh_records_witness :
    ∃ saved : List FileRecord,
      (uploadRoute 100 (fun _ => none) [⟨"a.txt", some "text/plain", 3⟩] ["u1"]
        42 demoEmpty).1 = .created saved ∧
      (UploadResult.created saved).status = 201 ∧
      saved.length = 1 ∧
      saved.map FileRecord.id = ["u1"] ∧
      (uploadRoute 100 (fun _ => none) [⟨"a.txt", some "text/plain", 3⟩] ["u1"]
        42 demoEmpty).2.doc = .valid ([] ++ saved) ∧
      (([] ++ saved).map FileRecord.id).Nodup :=
  upload_appends_fresh_records 100 (fun _ => none) [⟨"a.txt", some "text/plain", 3⟩]
    ["u1"] 42 demoEmpty [] rfl rfl (by decide)
    (fun p hp => by cases List.mem_singleton.mp hp; decide)
    (fun id hi => by cases List.mem_singleton.mp hi; exact ⟨by decide, by decide⟩)
    (by decide) (fun id _ hm => by cases hm) (by decide)

/-- C10: all records created by one upload request carry the same
`uploadedAt` value, namely the single timestamp taken before the loop. -/
theorem upload_single_timestamp (maxSize : Nat)
    (mimeLookup : String → Option String) (inputs : List PartInput)
    (ids : List String) (now : Nat) (s : SrvState)
    (saved : List FileRecord) (s2 : SrvState)
    (h : uploadRoute maxSize mimeLookup inputs ids now s = (.created saved, s2)) :
    ∀ r ∈ saved, r.uploadedAt = now := by
  obtain ⟨d, fs0⟩ := s
  unfold uploadRoute at h
  cases hscan : multerScan maxSize 0 (inputs.zip ids) with
  | error e =>
    rw [hscan] at h
    cases e <;> simp at h
  | ok parts =>
    rw [hscan] at h
    cases d with
    | valid l =>
      simp only [loadMeta, Prod.mk.injEq] at h
      obtain ⟨h1, -⟩ := h
      injection h1 with h1
      intro r hr
      rw [← h1] at hr
      obtain ⟨q, hq, rfl⟩ := List.mem_map.mp hr
      rfl
    | corrupt =>
      simp only [loadMeta, Prod.mk.injEq] at h
      obtain ⟨h1, -⟩ := h
      injection h1 with h1
      intro r hr
      rw [← h1] at hr
      obtain ⟨q, hq, rfl⟩ := List.mem_map.mp hr
      rfl

theorem upload_single_timestamp_witness :
    (⟨"u1", "a.txt", "u1.txt", ".txt", 3, "text/plain", 42⟩ : FileRecord).uploadedAt
      = 42 := by
  have h : uploadRoute 100 (fun _ => none) [⟨"a.txt", some "text/plain", 3⟩] ["u1"]
      42 demoEmpty =
      (.created [⟨"u1", "a.txt", "u1.txt", ".txt", 3, "text/plain", 42⟩],
       saveMeta [⟨"u1", "a.txt", "u1.txt", ".txt", 3, "text/plain", 42⟩]
         ⟨.valid [], ⟨[] ++ ["u1.txt"], fun _ => true⟩⟩) := by
    rfl
  exact upload_single_timestamp 100 (fun _ => none) [⟨"a.txt", some "text/plain", 3⟩]
    ["u1"] 42 demoEmpty _ _ h _ (List.mem_singleton.mpr rfl)

/-- C2: for every sequence of records `R`, `load()` immediately after
`save(R)` returns exactly `R` (and the record serialization underlying the
persisted document round-trips: decoding the encoding of `R` yields `R`). -/
theorem save_load_roundtrip (R : List FileRecord) (s : SrvState) :
    loadMeta (saveMeta R s) = (R, saveMeta R s) ∧
    decodeMeta (encodeMeta R) = some R :=
  ⟨rfl, decodeMeta_encodeMeta R⟩

/-- C3: when reading or parsing the metadata document fails (its content
being invalid JSON included), `load()` resets the document to the empty
sequence and returns the empty sequence instead of raising. -/
theorem load_resets_corrupt_store (fs0 : FS) :
    loadMeta ⟨DocState.corrupt, fs0⟩ = ([], ⟨DocState.valid [], fs0⟩) := rfl

/-! ### Lemmas about the delete route -/

theorem deleteRoute_found {id : String} {s : SrvState} {l : List FileRecord}
    {f : FileRecord} {rest : List FileRecord}
    (hdoc : s.doc = .valid l)
    (hfr : findRemove (fun g => g.id == id) l = some (f, rest))
    (hok : s.fs.unlinkOk f.storedName = true) :
    deleteRoute id s =
      (.ok, saveMeta rest
        { s with fs := { s.fs with files := s.fs.files.erase f.storedName } }) := by
  simp only [deleteRoute, loadMeta_valid hdoc, hfr]
  by_cases hmem : f.storedName ∈ s.fs.files
  · rw [if_pos hmem, hok]
    simp
  · rw [if_neg hmem]
    rw [List.erase_of_not_mem hmem]

theorem downloadRoute_none (id : String) (s : SrvState) (l : List FileRecord)
    (hdoc : s.doc = .valid l) (hnone : getFileInfoById id l = none) :
    downloadRoute id s = (.notFound, s) := by
  simp only [downloadRoute, loadMeta_valid hdoc, hnone]

/-- C4: deleting an identifier present in the store (with unique
identifiers, a duplicate-free upload directory, and a filesystem whose
unlink succeeds) answers 200, removes the record from the store, removes
the backing file from disk (also fine when the file was already absent),
and a second delete of the same identifier answers 404 and leaves the store
unchanged; deleting an identifier absent from the store answers 404 and
changes nothing. -/
theorem delete_route_spec (id : String) (s : SrvState) (l : List FileRecord)
    (hdoc : s.doc = .valid l)
    (huniq : l.countP (fun g => g.id == id) ≤ 1)
    (hok : ∀ n, s.fs.unlinkOk n = true)
    (hfs : s.fs.files.Nodup) :
    (getFileInfoById id l = none →
      deleteRoute id s = (.notFound, s) ∧ DeleteResult.notFound.status = 404) ∧
    (∀ f, getFileInfoById id l = some f →
      (deleteRoute id s).1 = .ok ∧
      DeleteResult.ok.status = 200 ∧
      (deleteRoute id s).2.doc = .valid (l.filter fun g => !(g.id == id)) ∧
      f.storedName ∉ (deleteRoute id s).2.fs.files ∧
      deleteRoute id (deleteRoute id s).2 =
        (.notFound, (deleteRoute id s).2)) := by
  constructor
  · intro hnone
    refine ⟨?_, rfl⟩
    simp only [deleteRoute, loadMeta_valid hdoc]
    rw [(findRemove_eq_none l).mpr hnone]
  · intro f hf
    obtain ⟨rest, hfr⟩ := find?_findRemove hf
    have heval := deleteRoute_found hdoc hfr (hok f.storedName)
    have hrest : rest = l.filter (fun g => !(g.id == id)) := findRemove_rest huniq hfr
    have hnone2 : getFileInfoById id rest = none := by
      rw [hrest]
      unfold getFileInfoById
      rw [List.find?_eq_none]
      intro x hx
      have hxf := (List.mem_filter.mp hx).2
      simp only [Bool.not_eq_eq_eq_not, Bool.not_true] at hxf
      simp [hxf]
    refine ⟨by rw [heval], rfl, ?_, ?_, ?_⟩
    · rw [heval]
      show DocState.valid rest = _
      rw [hrest]
    · rw [heval]
      show f.storedName ∉ s.fs.files.erase f.storedName
      intro hmem
      exact ((List.Nodup.mem_erase_iff hfs).mp hmem).1 rfl
    · rw [heval]
      show deleteRoute id (saveMeta rest
          { s with fs := { s.fs with files := s.fs.files.erase f.storedName } }) = _
      simp only [deleteRoute, loadMeta_valid (rfl :
          (saveMeta rest { s with
            fs := { s.fs with files := s.fs.files.erase f.storedName } }).doc =
          .valid rest)]
      rw [(findRemove_eq_none rest).mpr hnone2]

theorem delete_route_spec_witness :
    (deleteRoute "a" demoState).1 = DeleteResult.ok ∧
    DeleteResult.ok.status = 200 ∧
    (deleteRoute "a" demoState).2.doc =
      .valid ([demoRec].filter fun g => !(g.id == "a")) ∧
    demoRec.storedName ∉ (deleteRoute "a" demoState).2.fs.files ∧
    deleteRoute "a" (deleteRoute "a" demoState).2 =
      (DeleteResult.notFound, (deleteRoute "a" demoState).2) :=
  (delete_route_spec "a" demoState [demoRec] rfl (by decide) (fun _ => rfl)
      (by decide)).2 demoRec (by decide)

/-- C9: when the record exists but unlinking its backing file throws an I/O
error, the delete route answers 500 and leaves the whole state untouched:
the record is spliced out and the document rewritten only after a
successful unlink. -/
theorem delete_unlink_failure_500 (id : String) (s : SrvState)
    (l : List FileRecord) (f : FileRecord)
    (hdoc : s.doc = .valid l)
    (hf : getFileInfoById id l = some f)
    (hmem : f.storedName ∈ s.fs.files)
    (hfail : s.fs.unlinkOk f.storedName = false) :
    deleteRoute id s = (.failed, s) ∧ DeleteResult.failed.status = 500 := by
  refine ⟨?_, rfl⟩
  obtain ⟨rest, hfr⟩ := find?_findRemove hf
  simp only [deleteRoute, loadMeta_valid hdoc, hfr]
  rw [if_pos hmem, hfail]
  simp

theorem delete_unlink_failure_500_witness :
    deleteRoute "a" demoStateFail = (DeleteResult.failed, demoStateFail) ∧
    DeleteResult.failed.status = 500 :=
  delete_unlink_failure_500 "a" demoStateFail [demoRec] demoRec rfl (by decide)
    (by decide) rfl

/-- C7: downloading an identifier absent from the store (in particular,
one just deleted) answers 404; downloading a record whose backing file is
missing on disk answers 404; otherwise the route streams the stored file
with `Content-Type` taken from the stored mime value and a
`Content-Disposition` attachment header carrying the percent-encoded
original filename. -/
theorem download_route_spec (id : String) (s : SrvState) (l : List FileRecord)
    (hdoc : s.doc = .valid l)
    (huniq : l.countP (fun g => g.id == id) ≤ 1)
    (hok : ∀ n, s.fs.unlinkOk n = true) :
    (getFileInfoById id l = none →
      downloadRoute id s = (.notFound, s) ∧ DownloadResult.notFound.status = 404) ∧
    (∀ f, getFileInfoById id l = some f → f.storedName ∉ s.fs.files →
      downloadRoute id s = (.missingOnDisk, s) ∧
      DownloadResult.missingOnDisk.status = 404) ∧
    (∀ f, getFileInfoById id l = some f → f.storedName ∈ s.fs.files →
      downloadRoute id s =
        (.stream f.mime
          ("attachment; filename=\"" ++ encodeURIComponent f.originalName ++ "\"")
          f.storedName, s)) ∧
    (∀ f, getFileInfoById id l = some f →
      (downloadRoute id (deleteRoute id s).2).1 = .notFound) := by
  refine ⟨?_, ?_, ?_, ?_⟩
  · intro hnone
    exact ⟨downloadRoute_none id s l hdoc hnone, rfl⟩
  · intro f hf hmem
    refine ⟨?_, rfl⟩
    simp only [downloadRoute, loadMeta_valid hdoc, hf]
    rw [if_neg hmem]
  · intro f hf hmem
    simp only [downloadRoute, loadMeta_valid hdoc, hf]
    rw [if_pos hmem]
    rfl
  · intro f hf
    obtain ⟨rest, hfr⟩ := find?_findRemove hf
    have heval := deleteRoute_found hdoc hfr (hok f.storedName)
    have hrest : rest = l.filter (fun g => !(g.id == id)) := findRemove_rest huniq hfr
    have hnone2 : getFileInfoById id rest = none := by
      rw [hrest]
      unfold getFileInfoById
      rw [List.find?_eq_none]
      intro x hx
      have hxf := (List.mem_filter.mp hx).2
      simp only [Bool.not_eq_eq_eq_not, Bool.not_true] at hxf
      simp [hxf]
    rw [heval]
    show (downloadRoute id (saveMeta rest
        { s with fs := { s.fs with files := s.fs.files.erase f.storedName } })).1 =
      DownloadResult.notFound
    rw [downloadRoute_none id (saveMeta rest
        { s with fs := { s.fs with files := s.fs.files.erase f.storedName } })
      rest rfl hnone2]

theorem download_route_spec_witness :
    downloadRoute "a" demoState =
      (DownloadResult.stream "text/plain"
        ("attachment; filename=\"" ++ encodeURIComponent "orig.txt" ++ "\"")
        "a.txt", demoState) ∧
    downloadRoute "x" demoState = (DownloadResult.notFound, demoState) := by
  have h := download_route_spec "a" demoState [demoRec] rfl (by decide) (fun _ => rfl)
  have h2 := download_route_spec "x" demoState [demoRec] rfl (by decide) (fun _ => rfl)
  exact ⟨h.2.2.1 demoRec (by decide) (by decide), (h2.1 (by decide)).1⟩

/-! ### Lemmas about the listing sort -/

theorem sortNewestFirst_perm (l : List FileRecord) : (sortNewestFirst l).Perm l :=
  List.mergeSort_perm l _

theorem sortNewestFirst_sorted (l : List FileRecord) :
    (sortNewestFirst l).Sorted (fun a b => b.uploadedAt ≤ a.uploadedAt) := by
  have htrans : ∀ a b c : FileRecord,
      decide (b.uploadedAt ≤ a.uploadedAt) = true →
      decide (c.uploadedAt ≤ b.uploadedAt) = true →
      decide (c.uploadedAt ≤ a.uploadedAt) = true := by
    intro a b c h1 h2
    simp only [decide_eq_true_eq] at h1 h2 ⊢
    omega
  have htotal : ∀ a b : FileRecord,
      (decide (b.uploadedAt ≤ a.uploadedAt) ||
        decide (a.uploadedAt ≤ b.uploadedAt)) = true := by
    intro a b
    simp only [Bool.or_eq_true, decide_eq_true_eq]
    omega
  have h := @List.sorted_mergeSort FileRecord
    (fun a b => decide (b.uploadedAt ≤ a.uploadedAt)) htrans htotal l
  exact h.imp (fun hab => of_decide_eq_true hab)

theorem sortNewestFirst_three (r1 r2 r3 : FileRecord)
    (h12 : r1.uploadedAt < r2.uploadedAt) (h23 : r2.uploadedAt < r3.uploadedAt) :
    sortNewestFirst [r1, r2, r3] = [r3, r2, r1] := by
  have hperm : (sortNewestFirst [r1, r2, r3]).Perm [r1, r2, r3] :=
    sortNewestFirst_perm _
  have hsorted := sortNewestFirst_sorted [r1, r2, r3]
  have hne12 : r1 ≠ r2 := fun h => by rw [h] at h12; omega
  have hne13 : r1 ≠ r3 := fun h => by rw [h] at h12; omega
  have hne23 : r2 ≠ r3 := fun h => by rw [h] at h23; omega
  have hnodup : ([r1, r2, r3] : List FileRecord).Nodup := by
    simp [hne12, hne13, hne23]
  have honodup : (sortNewestFirst [r1, r2, r3]).Nodup :=
    hperm.nodup_iff.mpr hnodup
  have hso : (sortNewestFirst [r1, r2, r3]).Sorted
      (fun a b => b.uploadedAt < a.uploadedAt ∨ a = b) := by
    refine List.Pairwise.imp_of_mem ?_ (List.Pairwise.and hsorted honodup)
    intro a b ha hb hab
    obtain ⟨hge, hne⟩ := hab
    have ha3 := hperm.subset ha
    have hb3 := hperm.subset hb
    simp only [List.mem_cons, List.mem_singleton, List.not_mem_nil, or_false] at ha3 hb3
    rcases ha3 with rfl | rfl | rfl <;> rcases hb3 with rfl | rfl | rfl <;>
      first
        | exact absurd rfl hne
        | (left; omega)
  have hst : ([r3, r2, r1] : List FileRecord).Sorted
      (fun a b => b.uploadedAt < a.uploadedAt ∨ a = b) := by
    rw [List.sorted_cons, List.sorted_cons]
    refine ⟨fun b hb => ?_, fun b hb => ?_, List.sorted_singleton _⟩
    · simp only [List.mem_cons, List.mem_singleton, List.not_mem_nil, or_false] at hb
      rcases hb with rfl | rfl <;> (left; omega)
    · simp only [List.mem_singleton] at hb
      subst hb
      left
      omega
  have hperm2 : (sortNewestFirst [r1, r2, r3]).Perm [r3, r2, r1] := by
    refine hperm.trans ?_
    have hrev : ([r3, r2, r1] : List FileRecord) = [r1, r2, r3].reverse := rfl
    rw [hrev]
    exact (List.reverse_perm _).symm
  haveI : IsAntisymm FileRecord (fun a b => b.uploadedAt < a.uploadedAt ∨ a = b) := by
    refine ⟨?_⟩
    intro a b hab hba
    rcases hab with h1 | h1
    · rcases hba with h2 | h2
      · omega
      · exact h2.symm
    · exact h1
  exact List.eq_of_perm_of_sorted hperm2 hso hst

/-- C5: the listing returns the full store ordered by `uploadedAt`
descending — a permutation of the stored records sorted newest first; in
particular, for a store of three records with timestamps `T1 < T2 < T3`,
the listing is the sequence `T3, T2, T1`. -/
theorem list_route_sorted (s : SrvState) (l : List FileRecord)
    (hdoc : s.doc = .valid l) :
    (listRoute s).1.Perm l ∧
    (listRoute s).1.Sorted (fun a b => b.uploadedAt ≤ a.uploadedAt) ∧
    (∀ (r1 r2 r3 : FileRecord) (fs0 : FS),
      r1.uploadedAt < r2.uploadedAt → r2.uploadedAt < r3.uploadedAt →
      (listRoute ⟨.valid [r1, r2, r3], fs0⟩).1 = [r3, r2, r1]) := by
  have hl : (listRoute s).1 = sortNewestFirst l := by
    simp only [listRoute, loadMeta_valid hdoc]
  refine ⟨by rw [hl]; exact sortNewestFirst_perm l,
          by rw [hl]; exact sortNewestFirst_sorted l, ?_⟩
  intro r1 r2 r3 fs0 h12 h23
  show sortNewestFirst [r1, r2, r3] = [r3, r2, r1]
  exact sortNewestFirst_three r1 r2 r3 h12 h23

theorem list_route_sorted_witness :
    (listRoute demoState).1.Perm [demoRec] ∧
    (listRoute demoState).1.Sorted (fun a b => b.uploadedAt ≤ a.uploadedAt) :=
  ⟨(list_route_sorted demoState [demoRec] rfl).1,
   (list_route_sorted demoState [demoRec] rfl).2.1⟩

end FileUpload
